import Mathlib

/-!
Shallow embedding of the itinerary-construction core of `src/script.py`
(`is_valid_itinerary`, `build_itineraries`, and the ranking step of `main`).

Modelling conventions:
* A pandas `DataFrame` row of flight data is a `Flight` record.  Timestamps
  (`departure`, `arrival`) are modelled as integer seconds on a global clock;
  the Python code compares datetimes and measures layovers via
  `(next_departure - current_arrival).total_seconds() / 60 < min_city_time_minutes`,
  which over the integers is exactly `next.departure - cur.arrival < 60 * m`.
* Prices are modelled as rationals (the numeric values the Python floats denote;
  only sums and order comparisons on them are reasoned about here).
* `df[(df['origin'] == o) & (df['destination'] == d)].to_dict('records')` is a
  row-order-preserving filter, modelled by `flightsFor`.
* `itertools.permutations` emits permutations by picking each element of the
  remaining pool in list order as the next item; `permutations` below mirrors
  that construction (with an explicit length fuel for structural recursion).
* `itertools.product(*legs)` iterates the leftmost leg slowest, mirrored by
  `cartProduct`.
* Python list indexing on an empty sequence raises `IndexError`; fallible code
  is therefore `Option`-valued, with `none` for the raising run.
* `sorted(xs, key=lambda x: x["total_price"])` is a stable ascending sort by
  total price; `rank` realises it by insertion sort, which is extensionally the
  unique stable sort.
-/

namespace MothersDay

structure Flight where
  origin : String
  destination : String
  departure : Int
  arrival : Int
  price : ℚ
  airline : String
deriving DecidableEq

/-- The dedup key built at line 164 of `script.py`: the ordered per-leg tuple
`(airline, origin, destination, departure, arrival)`. -/
abbrev CanonicalKey := List (String × String × String × Int × Int)

/-- `df[(df['origin'] == o) & (df['destination'] == d)]`: row-order-preserving
selection of the flights serving one (origin, destination) pair. -/
def flightsFor (df : List Flight) (o d : String) : List Flight :=
  df.filter (fun f => f.origin == o && f.destination == d)

/-- The layover loop of `is_valid_itinerary` (lines 125-134): for every
consecutive pair, `(next.departure - cur.arrival)` seconds divided by 60 must
not be below `m` minutes, i.e. the difference must not be below `60 * m`. -/
def checkLayovers (m : Int) : List Flight → Bool
  | [] => true
  | [_] => true
  | f :: g :: rest =>
    if g.departure - f.arrival < 60 * m then false else checkLayovers m (g :: rest)

/-- The tail of `is_valid_itinerary` after the earliest-departure check: the
latest-arrival check on `flight_combination[-1]` (raising on an empty list,
hence `Option`), then the layover loop. -/
def isValidTail (c : List Flight) (m : Int) (la : Option Int) : Option Bool :=
  match la with
  | some l =>
    match c.getLast? with
    | none => none
    | some g => if l < g.arrival then some false else some (checkLayovers m c)
  | none => some (checkLayovers m c)

/-- `is_valid_itinerary` (lines 114-136).  The `airports` argument is accepted
and, as in the source, never read.  The earliest-departure check reads
`flight_combination[0]` only when the bound is set, raising on an empty
combination (`none`). -/
def is_valid_itinerary (c : List Flight) (airports : List String) (m : Int)
    (ed la : Option Int) : Option Bool :=
  match ed with
  | some e =>
    match c with
    | [] => none
    | f :: _ => if f.departure < e then some false else isValidTail c m la
  | none => isValidTail c m la

/-- All ways to pick one element from a list together with the remaining pool,
in list order: the selection step of `itertools.permutations`. -/
def removals {α : Type} : List α → List (α × List α)
  | [] => []
  | x :: xs => (x, xs) :: (removals xs).map (fun p => (p.1, x :: p.2))

/-- Fuelled permutation enumeration; the fuel is the list length. -/
def permsN {α : Type} : Nat → List α → List (List α)
  | 0, _ => [[]]
  | n + 1, l => (removals l).flatMap (fun p => (permsN n p.2).map (p.1 :: ·))

/-- `itertools.permutations(airports)` in its emission order. -/
def permutations {α : Type} (l : List α) : List (List α) :=
  permsN l.length l

/-- The per-order leg-collection loop of `build_itineraries` (lines 149-158):
walk consecutive pairs, fail (`none`) as soon as one pair has no flights,
otherwise return the list of per-leg flight pools. -/
def collectLegs (df : List Flight) : List String → Option (List (List Flight))
  | [] => some []
  | [_] => some []
  | o :: d :: rest =>
    if (flightsFor df o d).isEmpty then none
    else
      match collectLegs df (d :: rest) with
      | none => none
      | some ls => some (flightsFor df o d :: ls)

/-- `itertools.product(*legs)`: leftmost leg varies slowest; the product of no
lists is the single empty choice. -/
def cartProduct : List (List Flight) → List (List Flight)
  | [] => [[]]
  | l :: ls => l.flatMap (fun x => (cartProduct ls).map (x :: ·))

/-- The flight combinations `build_itineraries` enumerates for one city order:
none if some consecutive pair has no flights, otherwise the Cartesian product
of the per-leg pools. -/
def candidatesForOrder (df : List Flight) (perm : List String) : List (List Flight) :=
  match collectLegs df perm with
  | none => []
  | some legs => cartProduct legs

/-- The full candidate stream of `build_itineraries`, in enumeration order:
all permutations, each contributing its feasible combinations. -/
def enumerateCandidates (df : List Flight) (airports : List String) : List (List Flight) :=
  (permutations airports).flatMap (candidatesForOrder df)

/-- `sum(float(flight['price']) for flight in flight_combination)` (line 162),
on the numeric values. -/
def total_price (c : List Flight) : ℚ :=
  (c.map (fun f => f.price)).sum

/-- `itinerary_id` (line 164). -/
def canonicalKey (c : List Flight) : CanonicalKey :=
  c.map (fun f => (f.airline, f.origin, f.destination, f.departure, f.arrival))

structure Itinerary where
  flights : List Flight
  total_price : ℚ
deriving DecidableEq

/-- The accumulation loop of `build_itineraries` (lines 161-172) over the
candidate stream: skip already-seen canonical keys, record the key, validate,
and append the accepted itinerary.  A raising validator run aborts (`none`). -/
def buildAux (airports : List String) (m : Int) (ed la : Option Int) :
    List (List Flight) → List CanonicalKey → Option (List Itinerary)
  | [], _ => some []
  | c :: cs, seen =>
    if canonicalKey c ∈ seen then
      buildAux airports m ed la cs seen
    else
      match is_valid_itinerary c airports m ed la with
      | none => none
      | some true =>
        (buildAux airports m ed la cs (canonicalKey c :: seen)).map
          (fun rest => { flights := c, total_price := total_price c } :: rest)
      | some false => buildAux airports m ed la cs (canonicalKey c :: seen)

/-- `build_itineraries` (lines 141-175). -/
def build_itineraries (df : List Flight) (airports : List String) (m : Int)
    (ed la : Option Int) : Option (List Itinerary) :=
  buildAux airports m ed la (enumerateCandidates df airports) []

/-- The sort key order of `sorted(final_itineraries, key=lambda x: x["total_price"])`. -/
def rankLE (x y : Itinerary) : Prop :=
  x.total_price ≤ y.total_price

instance : DecidableRel rankLE :=
  fun x y => inferInstanceAs (Decidable (x.total_price ≤ y.total_price))

instance : IsTotal Itinerary rankLE :=
  ⟨fun x y => le_total x.total_price y.total_price⟩

instance : IsTrans Itinerary rankLE :=
  ⟨fun _ _ _ h h' => le_trans h h'⟩

/-- The ranking step of `main` (line 385): a stable ascending sort by total
price, realised by insertion sort. -/
def rank (l : List Itinerary) : List Itinerary :=
  List.insertionSort rankLE l

/-- The per-leg pools named by the spec: for order `[c0, c1, ..., ck]` the list
`[flightsFor df c0 c1, ..., flightsFor df c(k-1) ck]`. -/
def legLists (df : List Flight) (perm : List String) : List (List Flight) :=
  (perm.zip perm.tail).map (fun p => flightsFor df p.1 p.2)

/-! ### Validator lemmas -/

lemma checkLayovers_iff_chain (m : Int) :
    ∀ c : List Flight, checkLayovers m c = true ↔
      List.Chain' (fun f g => 60 * m ≤ g.departure - f.arrival) c
  | [] => by simp [checkLayovers]
  | [f] => by simp [checkLayovers]
  | f :: g :: rest => by
    simp only [checkLayovers, List.chain'_cons, ← checkLayovers_iff_chain m (g :: rest)]
    by_cases hb : g.departure - f.arrival < 60 * m
    · simp [hb, not_le.mpr hb]
    · simp [hb, not_lt.mp hb]

lemma checkLayovers_iff_get (m : Int) (c : List Flight) :
    checkLayovers m c = true ↔
      ∀ i (h : i + 1 < c.length),
        60 * m ≤ (c.get ⟨i + 1, h⟩).departure - (c.get ⟨i, Nat.lt_of_succ_lt h⟩).arrival := by
  rw [checkLayovers_iff_chain, List.chain'_iff_get]
  constructor
  · intro h i hi
    exact h i (by omega)
  · intro h i hi
    exact h i (by omega)

lemma is_valid_cons_true_iff (f : Flight) (tl : List Flight) (a : List String) (m : Int)
    (ed la : Option Int) :
    is_valid_itinerary (f :: tl) a m ed la = some true ↔
      (∀ e ∈ ed, e ≤ f.departure) ∧
      (∀ l ∈ la, ((f :: tl).getLast (List.cons_ne_nil f tl)).arrival ≤ l) ∧
      checkLayovers m (f :: tl) = true := by
  have hlast := List.getLast?_eq_getLast_of_ne_nil (List.cons_ne_nil f tl)
  cases ed with
  | none =>
    cases la with
    | none => simp [is_valid_itinerary, isValidTail]
    | some l =>
      simp only [is_valid_itinerary, isValidTail, hlast]
      by_cases hl : l < ((f :: tl).getLast (List.cons_ne_nil f tl)).arrival
      · simp [hl, not_le.mpr hl]
      · simp [hl, not_lt.mp hl]
  | some e =>
    by_cases he : f.departure < e
    · simp [is_valid_itinerary, he, not_le.mpr he]
    · cases la with
      | none => simp [is_valid_itinerary, isValidTail, he, not_lt.mp he]
      | some l =>
        simp only [is_valid_itinerary, if_neg he, isValidTail, hlast]
        by_cases hl : l < ((f :: tl).getLast (List.cons_ne_nil f tl)).arrival
        · simp [hl, not_le.mpr hl]
        · simp [hl, not_lt.mp hl, not_lt.mp he]

lemma is_valid_isSome (f : Flight) (tl : List Flight) (a : List String) (m : Int)
    (ed la : Option Int) : ∃ b, is_valid_itinerary (f :: tl) a m ed la = some b := by
  have hlast := List.getLast?_eq_getLast_of_ne_nil (List.cons_ne_nil f tl)
  cases ed with
  | none =>
    cases la with
    | none => exact ⟨_, rfl⟩
    | some l =>
      simp only [is_valid_itinerary, isValidTail, hlast]
      by_cases hl : l < ((f :: tl).getLast (List.cons_ne_nil f tl)).arrival
      · simp [hl]
      · simp [hl]
  | some e =>
    by_cases he : f.departure < e
    · simp [is_valid_itinerary, he]
    · cases la with
      | none => simp [is_valid_itinerary, isValidTail, he]
      | some l =>
        simp only [is_valid_itinerary, if_neg he, isValidTail, hlast]
        by_cases hl : l < ((f :: tl).getLast (List.cons_ne_nil f tl)).arrival
        · simp [hl]
        · simp [hl]

lemma is_valid_of_bad_layover (c : List Flight) (a : List String) (m : Int)
    (ed la : Option Int)
    (hbad : ∃ i, ∃ h : i + 1 < c.length,
      (c.get ⟨i + 1, h⟩).departure - (c.get ⟨i, Nat.lt_of_succ_lt h⟩).arrival < 60 * m) :
    is_valid_itinerary c a m ed la = some false := by
  obtain ⟨i, hi, hlt⟩ := hbad
  cases c with
  | nil => simp at hi
  | cons f tl =>
    obtain ⟨b, hb⟩ := is_valid_isSome f tl a m ed la
    cases b with
    | true =>
      rw [is_valid_cons_true_iff] at hb
      have := (checkLayovers_iff_get m (f :: tl)).mp hb.2.2 i hi
      omega
    | false => exact hb

lemma is_valid_nil_none (a : List String) (m : Int) (ed la : Option Int)
    (h : ed.isSome ∨ la.isSome) :
    is_valid_itinerary [] a m ed la = none := by
  cases ed with
  | some e => rfl
  | none =>
    cases la with
    | some l => rfl
    | none => simp at h

/-! ### Claim theorems about the validator -/

/-- C2: the validator requires every consecutive layover
`leg[i+1].departure - leg[i].arrival` (here in seconds, compared against
`60 * min_layover_minutes`) to be at least the minimum: a candidate whose
window bounds pass and whose every layover is at least the minimum (boundary
inclusive) is accepted, and a candidate with some layover strictly below the
minimum is rejected. -/
theorem validator_layover_rule (c : List Flight) (a : List String) (m : Int)
    (ed la : Option Int) (hne : c ≠ []) :
    ((∀ e ∈ ed, e ≤ (c.head hne).departure) →
      (∀ l ∈ la, (c.getLast hne).arrival ≤ l) →
      (∀ i (h : i + 1 < c.length),
        60 * m ≤ (c.get ⟨i + 1, h⟩).departure - (c.get ⟨i, Nat.lt_of_succ_lt h⟩).arrival) →
      is_valid_itinerary c a m ed la = some true)
  ∧ ((∃ i, ∃ h : i + 1 < c.length,
        (c.get ⟨i + 1, h⟩).departure - (c.get ⟨i, Nat.lt_of_succ_lt h⟩).arrival < 60 * m) →
      is_valid_itinerary c a m ed la = some false) := by
  constructor
  · intro hed hla hlay
    cases c with
    | nil => exact absurd rfl hne
    | cons f tl =>
      rw [is_valid_cons_true_iff]
      exact ⟨by simpa using hed, by simpa using hla,
        (checkLayovers_iff_get m (f :: tl)).mpr hlay⟩
  · exact is_valid_of_bad_layover c a m ed la

/-- C2 witness: the boundary example of the spec, a layover of exactly
90 minutes (arrival at second 36000, departure at second 41400) is accepted. -/
theorem validator_layover_rule_witness :
    is_valid_itinerary
      [⟨"NYC", "AUS", 30000, 36000, 54, "Delta"⟩, ⟨"AUS", "CHI", 41400, 50000, 120.5, "United"⟩]
      ["NYC", "AUS", "CHI"] 90 none none = some true :=
  (validator_layover_rule _ _ 90 none none (by decide)).1
    (by simp) (by simp)
    (by
      intro i h
      have hi : i = 0 := by simp at h; omega
      subst hi
      simp)

/-- C3: if `earliest_departure` is set the validator rejects exactly when the
first leg departs strictly before it (a satisfied bound leaves the verdict that
of the unconstrained run, so departures at or after the bound are accepted as
far as this check goes, and a too-early first departure is rejected regardless
of the rest of the candidate); symmetrically for `latest_arrival` and the last
leg's arrival. -/
theorem validator_window_rule (c : List Flight) (a : List String) (m : Int)
    (ed la : Option Int) (hne : c ≠ []) :
    (∀ e ∈ ed, (c.head hne).departure < e → is_valid_itinerary c a m ed la = some false)
  ∧ (∀ l ∈ la, l < (c.getLast hne).arrival → is_valid_itinerary c a m ed la = some false)
  ∧ (is_valid_itinerary c a m ed la = some true →
      (∀ e ∈ ed, e ≤ (c.head hne).departure) ∧ (∀ l ∈ la, (c.getLast hne).arrival ≤ l))
  ∧ (∀ e ∈ ed, e ≤ (c.head hne).departure →
      is_valid_itinerary c a m ed la = is_valid_itinerary c a m none la)
  ∧ (∀ l ∈ la, (c.getLast hne).arrival ≤ l →
      is_valid_itinerary c a m ed la = is_valid_itinerary c a m ed none) := by
  cases c with
  | nil => exact absurd rfl hne
  | cons f tl =>
    have hlast := List.getLast?_eq_getLast_of_ne_nil (List.cons_ne_nil f tl)
    refine ⟨?_, ?_, ?_, ?_, ?_⟩
    · intro e he hlt
      cases ed with
      | none => simp at he
      | some e' =>
        obtain rfl : e' = e := by simpa using he
        simp only [List.head_cons] at hlt
        simp [is_valid_itinerary, hlt]
    · intro l hl hlt
      cases la with
      | none => simp at hl
      | some l' =>
        obtain rfl : l' = l := by simpa using hl
        cases ed with
        | none => simp [is_valid_itinerary, isValidTail, hlast, hlt]
        | some e =>
          by_cases he : f.departure < e
          · simp [is_valid_itinerary, he]
          · simp [is_valid_itinerary, he, isValidTail, hlast, hlt]
    · intro h
      rw [is_valid_cons_true_iff] at h
      exact ⟨by simpa using h.1, by simpa using h.2.1⟩
    · intro e he hle
      cases ed with
      | none => simp at he
      | some e' =>
        obtain rfl : e' = e := by simpa using he
        simp only [List.head_cons] at hle
        simp [is_valid_itinerary, not_lt.mpr hle]
    · intro l hl hle
      cases la with
      | none => simp at hl
      | some l' =>
        obtain rfl : l' = l := by simpa using hl
        cases ed with
        | none => simp [is_valid_itinerary, isValidTail, hlast, not_lt.mpr hle]
        | some e =>
          by_cases he : f.departure < e
          · simp [is_valid_itinerary, he]
          · simp [is_valid_itinerary, he, isValidTail, hlast, not_lt.mpr hle]

/-- C3 witness: the spec's example, first-leg departure (second 32400,
"09:00") strictly before the earliest-departure bound (second 39000, "10:50")
is rejected. -/
theorem validator_window_rule_witness :
    is_valid_itinerary [⟨"NYC", "AUS", 32400, 39600, 54, "Delta"⟩]
      [] 90 (some 39000) none = some false :=
  (validator_window_rule [⟨"NYC", "AUS", 32400, 39600, 54, "Delta"⟩]
      [] 90 (some 39000) none (by decide)).1 39000 (by simp) (by decide)

/-- C8 counterexample: with `min_layover_minutes = 0` (a non-negative integer)
a zero layover (next departure equal to previous arrival, second 6000) is
accepted, contradicting the claim that a zero layover is always rejected. -/
theorem zero_layover_accepted_at_min_zero :
    is_valid_itinerary
      [⟨"NYC", "AUS", 0, 6000, 54, "Delta"⟩, ⟨"AUS", "CHI", 6000, 12000, 60, "United"⟩]
      [] 0 none none = some true := by decide

/-- C8 as amended: for every non-negative `min_layover_minutes` a strictly
negative layover is rejected, and when `min_layover_minutes` is at least 1 a
zero-or-negative layover is rejected (a zero layover with a zero minimum is
accepted). -/
theorem validator_nonpositive_layover (c : List Flight) (a : List String) (m : Int)
    (ed la : Option Int) (hm : 0 ≤ m) :
    ((∃ i, ∃ h : i + 1 < c.length,
        (c.get ⟨i + 1, h⟩).departure - (c.get ⟨i, Nat.lt_of_succ_lt h⟩).arrival < 0) →
      is_valid_itinerary c a m ed la = some false)
  ∧ (1 ≤ m →
      (∃ i, ∃ h : i + 1 < c.length,
        (c.get ⟨i + 1, h⟩).departure - (c.get ⟨i, Nat.lt_of_succ_lt h⟩).arrival ≤ 0) →
      is_valid_itinerary c a m ed la = some false) := by
  constructor
  · rintro ⟨i, hi, hlt⟩
    exact is_valid_of_bad_layover c a m ed la ⟨i, hi, by omega⟩
  · rintro h1 ⟨i, hi, hle⟩
    exact is_valid_of_bad_layover c a m ed la ⟨i, hi, by omega⟩

/-- C8 witness: a negative layover (arrival second 6000, next departure second
5000) with minimum 1 minute is rejected. -/
theorem validator_nonpositive_layover_witness :
    is_valid_itinerary
      [⟨"NYC", "AUS", 0, 6000, 54, "Delta"⟩, ⟨"AUS", "CHI", 5000, 12000, 60, "United"⟩]
      [] 1 none none = some false :=
  (validator_nonpositive_layover _ [] 1 none none (by decide)).1
    ⟨0, by decide, by decide⟩

/-- C9: the validator is total on non-empty candidates, and on the empty
candidate with an earliest-departure or latest-arrival bound set, the indexing
of the first (resp. last) leg is out of bounds and the run raises. -/
theorem validator_totality (c : List Flight) (a : List String) (m : Int)
    (ed la : Option Int) :
    (c ≠ [] → ∃ b, is_valid_itinerary c a m ed la = some b)
  ∧ ((ed.isSome ∨ la.isSome) → is_valid_itinerary [] a m ed la = none) := by
  constructor
  · intro hne
    cases c with
    | nil => exact absurd rfl hne
    | cons f tl => exact is_valid_isSome f tl a m ed la
  · exact is_valid_nil_none a m ed la

/-- C9 witness: a one-leg candidate is validated without raising, while the
empty candidate with an earliest-departure bound raises. -/
theorem validator_totality_witness :
    (∃ b, is_valid_itinerary [⟨"CHS", "BNA", 0, 3600, 33.25, "Allegiant"⟩]
      [] 90 none none = some b)
  ∧ is_valid_itinerary [] [] 90 (some 0) none = none :=
  ⟨(validator_totality [⟨"CHS", "BNA", 0, 3600, 33.25, "Allegiant"⟩] [] 90 none none).1
      (by decide),
   (validator_totality [] [] 90 (some 0) none).2 (Or.inl rfl)⟩

/-- C10: the validator's verdict does not depend on its `airports` argument:
any two values of that argument give the same result. -/
theorem validator_ignores_airports (c : List Flight) (a b : List String) (m : Int)
    (ed la : Option Int) :
    is_valid_itinerary c a m ed la = is_valid_itinerary c b m ed la := rfl

/-! ### Enumerator lemmas -/

lemma legLists_cons_cons (df : List Flight) (o d : String) (rest : List String) :
    legLists df (o :: d :: rest) = flightsFor df o d :: legLists df (d :: rest) := rfl

lemma legLists_length (df : List Flight) (perm : List String) :
    (legLists df perm).length = perm.length - 1 := by
  simp [legLists]

lemma collectLegs_eq_some (df : List Flight) :
    ∀ perm : List String, (∀ l ∈ legLists df perm, l ≠ []) →
      collectLegs df perm = some (legLists df perm)
  | [], _ => rfl
  | [_], _ => rfl
  | o :: d :: rest, h => by
    have h1 : flightsFor df o d ≠ [] := h _ (by rw [legLists_cons_cons]; exact List.mem_cons_self _ _)
    have h2 : ∀ l ∈ legLists df (d :: rest), l ≠ [] := by
      intro l hl
      exact h l (by rw [legLists_cons_cons]; exact List.mem_cons_of_mem _ hl)
    rw [collectLegs, if_neg (by simpa using h1), collectLegs_eq_some df (d :: rest) h2,
      legLists_cons_cons]

lemma collectLegs_eq_none (df : List Flight) :
    ∀ perm : List String, (∃ l ∈ legLists df perm, l = []) →
      collectLegs df perm = none
  | [], h => by simp [legLists] at h
  | [_], h => by simp [legLists] at h
  | o :: d :: rest, h => by
    rw [legLists_cons_cons] at h
    obtain ⟨l, hl, rfl⟩ := h
    rcases List.mem_cons.mp hl with heq | hmem
    · rw [collectLegs, if_pos (by simp [← heq])]
    · rw [collectLegs, collectLegs_eq_none df (d :: rest) ⟨[], hmem, rfl⟩]
      by_cases he : (flightsFor df o d).isEmpty <;> simp [he]

lemma legLists_getElem (df : List Flight) (perm : List String) (i : Nat)
    (h : i + 1 < perm.length) :
    (legLists df perm)[i]? =
      some (flightsFor df (perm.get ⟨i, Nat.lt_of_succ_lt h⟩) (perm.get ⟨i + 1, h⟩)) := by
  have hlen : i < (legLists df perm).length := by rw [legLists_length]; omega
  rw [List.getElem?_eq_getElem hlen]
  have hz : i < (perm.zip perm.tail).length := by
    simpa [legLists] using hlen
  have ht : i < perm.tail.length := by
    rcases perm with _ | ⟨x, xs⟩
    · simp at h
    · simp at h ⊢; omega
  simp [legLists, List.get_eq_getElem]

/-! ### Claim theorems about the enumerator -/

/-- C1: for one city-visit order, if some consecutive pair has no flights in
the table the enumerator emits no candidate for that order; if every
consecutive pair has at least one flight, the emitted candidates are exactly
the Cartesian product of the per-leg pools, where the pool of leg `i` is the
flight list for `(order[i], order[i+1])`. -/
theorem enumerator_order_contract (df : List Flight) (perm : List String) :
    ((∃ i, ∃ h : i + 1 < perm.length,
        flightsFor df (perm.get ⟨i, Nat.lt_of_succ_lt h⟩) (perm.get ⟨i + 1, h⟩) = []) →
      candidatesForOrder df perm = [])
  ∧ ((∀ i (h : i + 1 < perm.length),
        flightsFor df (perm.get ⟨i, Nat.lt_of_succ_lt h⟩) (perm.get ⟨i + 1, h⟩) ≠ []) →
      candidatesForOrder df perm = cartProduct (legLists df perm))
  ∧ (∀ i (h : i + 1 < perm.length),
      (legLists df perm)[i]? =
        some (flightsFor df (perm.get ⟨i, Nat.lt_of_succ_lt h⟩) (perm.get ⟨i + 1, h⟩))) := by
  refine ⟨?_, ?_, legLists_getElem df perm⟩
  · rintro ⟨i, h, hempty⟩
    have hmem : ∃ l ∈ legLists df perm, l = [] := by
      refine ⟨[], ?_, rfl⟩
      rw [List.mem_iff_getElem?]
      exact ⟨i, by rw [legLists_getElem df perm i h, hempty]⟩
    rw [candidatesForOrder, collectLegs_eq_none df perm hmem]
  · intro hall
    have hne : ∀ l ∈ legLists df perm, l ≠ [] := by
      intro l hl
      obtain ⟨i, hi, hget⟩ := List.getElem_of_mem hl
      have hi' : i + 1 < perm.length := by
        rw [legLists_length] at hi; omega
      have := legLists_getElem df perm i hi'
      rw [List.getElem?_eq_getElem hi, hget] at this
      rw [Option.some_inj.mp this]
      exact hall i hi'
    rw [candidatesForOrder, collectLegs_eq_some df perm hne]

/-- C1 witness: with a single A→B flight, the order A,C (missing pair) emits
no candidate while the order A,B emits its Cartesian product of per-leg
choices. -/
theorem enumerator_order_contract_witness :
    candidatesForOrder [⟨"A", "B", 0, 100, 54, "X"⟩] ["A", "C"] = []
  ∧ candidatesForOrder [⟨"A", "B", 0, 100, 54, "X"⟩] ["A", "B"] =
      cartProduct (legLists [⟨"A", "B", 0, 100, 54, "X"⟩] ["A", "B"]) :=
  ⟨(enumerator_order_contract [⟨"A", "B", 0, 100, 54, "X"⟩] ["A", "C"]).1
      ⟨0, by decide, by decide⟩,
   (enumerator_order_contract [⟨"A", "B", 0, 100, 54, "X"⟩] ["A", "B"]).2.1
      (by
        intro i h
        have hi : i = 0 := by simp at h; omega
        subst hi
        exact (by decide : flightsFor [⟨"A", "B", 0, 100, 54, "X"⟩] "A" "B" ≠ []))⟩

/-- C7 counterexample: for the single-city set the enumerator does not yield
an empty sequence of candidates; it yields one degenerate zero-leg candidate. -/
theorem enumerator_single_city_not_empty :
    enumerateCandidates [] ["NYC"] ≠ [] := by decide

/-- C7 as amended: for a city set of size below 2 the enumerator yields
exactly one candidate, the degenerate empty flight sequence (the single
permutation has no consecutive pair, and the empty Cartesian product has one
element). -/
theorem enumerator_small_city_set :
    ∀ (df : List Flight) (airports : List String), airports.length < 2 →
      enumerateCandidates df airports = [[]]
  | _, [], _ => rfl
  | _, [_], _ => rfl
  | _, _ :: _ :: rest, h => absurd h (by simp only [List.length_cons]; omega)

/-- C7 witness: a concrete single-city run of the amended statement. -/
theorem enumerator_small_city_set_witness :
    (["AUS"] : List String).length < 2 ∧ enumerateCandidates [] ["AUS"] = [[]] :=
  ⟨by decide, enumerator_small_city_set [] ["AUS"] (by decide)⟩

/-! ### Deduplication lemmas -/

lemma buildAux_keys_not_seen (a : List String) (m : Int) (ed la : Option Int) :
    ∀ (cs : List (List Flight)) (seen : List CanonicalKey) (out : List Itinerary),
      buildAux a m ed la cs seen = some out →
      ∀ it ∈ out, canonicalKey it.flights ∉ seen
  | [], _, out, h, it, hit => by
    rw [buildAux] at h
    obtain rfl : ([] : List Itinerary) = out := Option.some_inj.mp h
    simp at hit
  | c :: cs, seen, out, h, it, hit => by
    rw [buildAux] at h
    by_cases hmem : canonicalKey c ∈ seen
    · rw [if_pos hmem] at h
      exact buildAux_keys_not_seen a m ed la cs seen out h it hit
    · rw [if_neg hmem] at h
      cases hv : is_valid_itinerary c a m ed la with
      | none => rw [hv] at h; exact absurd h (by simp)
      | some b =>
        rw [hv] at h
        cases b with
        | true =>
          cases hrec : buildAux a m ed la cs (canonicalKey c :: seen) with
          | none => rw [hrec] at h; exact absurd h (by simp)
          | some rest =>
            rw [hrec] at h
            obtain rfl :
                ({ flights := c, total_price := total_price c } : Itinerary) :: rest = out :=
              Option.some_inj.mp (by simpa using h)
            rcases List.mem_cons.mp hit with rfl | hit'
            · simpa using hmem
            · have hnot := buildAux_keys_not_seen a m ed la cs _ rest hrec it hit'
              intro hseen
              exact hnot (List.mem_cons_of_mem _ hseen)
        | false =>
          have hnot := buildAux_keys_not_seen a m ed la cs _ out h it hit
          intro hseen
          exact hnot (List.mem_cons_of_mem _ hseen)

lemma buildAux_pairwise_keys (a : List String) (m : Int) (ed la : Option Int) :
    ∀ (cs : List (List Flight)) (seen : List CanonicalKey) (out : List Itinerary),
      buildAux a m ed la cs seen = some out →
      out.Pairwise (fun x y => canonicalKey x.flights ≠ canonicalKey y.flights)
  | [], _, out, h => by
    obtain rfl : ([] : List Itinerary) = out := Option.some_inj.mp (by rw [buildAux] at h; exact h)
    exact List.Pairwise.nil
  | c :: cs, seen, out, h => by
    rw [buildAux] at h
    by_cases hmem : canonicalKey c ∈ seen
    · rw [if_pos hmem] at h
      exact buildAux_pairwise_keys a m ed la cs seen out h
    · rw [if_neg hmem] at h
      cases hv : is_valid_itinerary c a m ed la with
      | none => rw [hv] at h; exact absurd h (by simp)
      | some b =>
        rw [hv] at h
        cases b with
        | true =>
          cases hrec : buildAux a m ed la cs (canonicalKey c :: seen) with
          | none => rw [hrec] at h; exact absurd h (by simp)
          | some rest =>
            rw [hrec] at h
            obtain rfl :
                ({ flights := c, total_price := total_price c } : Itinerary) :: rest = out :=
              Option.some_inj.mp (by simpa using h)
            refine List.Pairwise.cons ?_ (buildAux_pairwise_keys a m ed la cs _ rest hrec)
            intro y hy
            have := buildAux_keys_not_seen a m ed la cs _ rest hrec y hy
            simp only [List.mem_cons, not_or] at this
            exact fun heq => this.1 heq.symm
        | false => exact buildAux_pairwise_keys a m ed la cs _ out h

lemma buildAux_first_seen (a : List String) (m : Int) (ed la : Option Int) :
    ∀ (cs : List (List Flight)) (seen : List CanonicalKey) (out : List Itinerary),
      buildAux a m ed la cs seen = some out →
      ∀ it ∈ out,
        cs.find? (fun d => decide (canonicalKey d = canonicalKey it.flights)) = some it.flights
  | [], _, out, h, it, hit => by
    obtain rfl : ([] : List Itinerary) = out := Option.some_inj.mp (by rw [buildAux] at h; exact h)
    simp at hit
  | c :: cs, seen, out, h, it, hit => by
    rw [buildAux] at h
    by_cases hmem : canonicalKey c ∈ seen
    · rw [if_pos hmem] at h
      have hne : canonicalKey c ≠ canonicalKey it.flights := by
        intro heq
        exact buildAux_keys_not_seen a m ed la cs seen out h it hit (heq ▸ hmem)
      rw [List.find?_cons_of_neg _ (by simpa using hne)]
      exact buildAux_first_seen a m ed la cs seen out h it hit
    · rw [if_neg hmem] at h
      cases hv : is_valid_itinerary c a m ed la with
      | none => rw [hv] at h; exact absurd h (by simp)
      | some b =>
        rw [hv] at h
        cases b with
        | true =>
          cases hrec : buildAux a m ed la cs (canonicalKey c :: seen) with
          | none => rw [hrec] at h; exact absurd h (by simp)
          | some rest =>
            rw [hrec] at h
            obtain rfl :
                ({ flights := c, total_price := total_price c } : Itinerary) :: rest = out :=
              Option.some_inj.mp (by simpa using h)
            rcases List.mem_cons.mp hit with rfl | hit'
            · exact List.find?_cons_of_pos _ (by simp)
            · have hnot := buildAux_keys_not_seen a m ed la cs _ rest hrec it hit'
              simp only [List.mem_cons, not_or] at hnot
              rw [List.find?_cons_of_neg _ (by simpa using fun heq => hnot.1 heq.symm)]
              exact buildAux_first_seen a m ed la cs _ rest hrec it hit'
        | false =>
          have hnot := buildAux_keys_not_seen a m ed la cs _ out h it hit
          simp only [List.mem_cons, not_or] at hnot
          rw [List.find?_cons_of_neg _ (by simpa using fun heq => hnot.1 heq.symm)]
          exact buildAux_first_seen a m ed la cs _ out h it hit

/-! ### Claim theorem about deduplication -/

/-- C4: in any successful run, no two output itineraries share a canonical
key, and every output itinerary's flight sequence is the first candidate in
the enumeration stream carrying its canonical key (so of several candidates
with equal key only the first-seen one can appear). -/
theorem build_dedup_invariant (df : List Flight) (airports : List String) (m : Int)
    (ed la : Option Int) (out : List Itinerary)
    (h : build_itineraries df airports m ed la = some out) :
    out.Pairwise (fun x y => canonicalKey x.flights ≠ canonicalKey y.flights)
  ∧ ∀ it ∈ out,
      (enumerateCandidates df airports).find?
        (fun d => decide (canonicalKey d = canonicalKey it.flights)) = some it.flights :=
  ⟨buildAux_pairwise_keys airports m ed la _ [] out h,
   buildAux_first_seen airports m ed la _ [] out h⟩

/-- C4 witness: a flight table holding two rows with the same canonical key
(differing only in price) produces a single deduplicated output itinerary. -/
theorem build_dedup_invariant_witness :
    ∃ out : List Itinerary,
      build_itineraries
        [⟨"A", "B", 0, 100, 54, "X"⟩, ⟨"A", "B", 0, 100, 60, "X"⟩]
        ["A", "B"] 0 none none = some out ∧
      (out.Pairwise (fun x y => canonicalKey x.flights ≠ canonicalKey y.flights)
        ∧ ∀ it ∈ out,
            (enumerateCandidates
              [⟨"A", "B", 0, 100, 54, "X"⟩, ⟨"A", "B", 0, 100, 60, "X"⟩] ["A", "B"]).find?
              (fun d => decide (canonicalKey d = canonicalKey it.flights)) = some it.flights) :=
  ⟨[⟨[⟨"A", "B", 0, 100, 54, "X"⟩], total_price [⟨"A", "B", 0, 100, 54, "X"⟩]⟩], rfl,
   build_dedup_invariant
     [⟨"A", "B", 0, 100, 54, "X"⟩, ⟨"A", "B", 0, 100, 60, "X"⟩]
     ["A", "B"] 0 none none
     [⟨[⟨"A", "B", 0, 100, 54, "X"⟩], total_price [⟨"A", "B", 0, 100, 54, "X"⟩]⟩] rfl⟩

/-! ### Ranker lemmas -/

lemma filter_orderedInsert (p : ℚ) (a : Itinerary) :
    ∀ s : List Itinerary,
      (List.orderedInsert rankLE a s).filter (fun it => decide (it.total_price = p)) =
        if a.total_price = p then
          a :: s.filter (fun it => decide (it.total_price = p))
        else s.filter (fun it => decide (it.total_price = p))
  | [] => by
    by_cases hp : a.total_price = p <;> simp [List.orderedInsert, hp]
  | b :: s => by
    by_cases hab : rankLE a b
    · rw [List.orderedInsert, if_pos hab]
      by_cases hp : a.total_price = p <;> simp [hp, List.filter_cons]
    · rw [List.orderedInsert, if_neg hab]
      have hba : b.total_price < a.total_price := not_le.mp hab
      rw [List.filter_cons, List.filter_cons, filter_orderedInsert p a s]
      by_cases hp : a.total_price = p
      · have hbp : ¬ b.total_price = p := by rw [← hp]; exact ne_of_lt hba
        simp [hp, hbp]
      · simp [hp]

lemma filter_insertionSort (p : ℚ) :
    ∀ l : List Itinerary,
      (List.insertionSort rankLE l).filter (fun it => decide (it.total_price = p)) =
        l.filter (fun it => decide (it.total_price = p))
  | [] => rfl
  | a :: l => by
    rw [List.insertionSort, filter_orderedInsert p a, filter_insertionSort p l,
      List.filter_cons]
    by_cases hp : a.total_price = p <;> simp [hp]

/-! ### Claim theorem about the ranker -/

/-- C6: the ranker returns a permutation of its input sorted by total price in
ascending order, and for every price the sublist of that price is unchanged,
so equal-price candidates keep their original discovery order (stability). -/
theorem ranker_sorted_stable (l : List Itinerary) :
    List.Perm (rank l) l
  ∧ (rank l).Sorted rankLE
  ∧ ∀ p : ℚ, (rank l).filter (fun it => decide (it.total_price = p)) =
      l.filter (fun it => decide (it.total_price = p)) :=
  ⟨List.perm_insertionSort rankLE l, List.sorted_insertionSort rankLE l,
   fun p => filter_insertionSort p l⟩

end MothersDay
